import Mathlib

/-!
Verification of the JCR rule model and containers of
`src/jsoncons_ext/jcr/jcr_rules.hpp`.

Names are modelled as byte strings (`List ℕ`), compared in the
byte-lexicographic order the container uses.  `std::lower_bound` is modelled
by its contract on the partitioned ranges it is applied to (the first
position at which the comparator is false), `std::sort` by its contract
(a permutation of the input sorted by the comparator), and iterators by
indices with the container length as the end sentinel.

The JSON document type itself lives in `jsoncons.hpp`, which is not part of
the sources under verification; it is modelled from the spec (see `Json`
below).  Floating-point payloads are modelled opaquely by their bit
patterns; no claim under consideration depends on double semantics.
-/

/-- A raw byte string: the `char*`/`string_type` name data the container
compares byte by byte. -/
abbrev Str := List Nat

/-- Modelled from the spec: `member_lt_string` of `jsoncons.hpp` (not under
`src/`), the comparator handed to `std::lower_bound` — compares a member's
name against a raw name in byte-lexicographic order. -/
def member_lt_string {β : Type} (m : Str × β) (s : Str) : Bool :=
  decide (m.1 < s)

/-- Modelled from the spec: `name_eq_string` of `jsoncons.hpp` — byte
equality of a stored name and a raw name. -/
def name_eq_string (a b : Str) : Bool :=
  decide (a = b)

/-- Modelled from the spec: `name_le_string` of `jsoncons.hpp` — byte
lexicographic `≤` between a stored name and a raw name (used by the hinted
insertion fast path). -/
def name_le_string (a b : Str) : Bool :=
  decide (a ≤ b)

/-- Modelled from the spec: `member_lt_member` of `jsoncons.hpp` — the
comparator for the bulk-insert re-sort; it compares the names only. -/
def member_lt_member {β : Type} (a b : Str × β) : Bool :=
  decide (a.1 < b.1)

/-- `std::lower_bound`, modelled by its contract: the first position of the
range at which `p` (that is, `comp(elem, value)`) is false, or the length of
the range when there is none.  Every call site passes a range partitioned
with respect to `p`, where this is exactly the standard's guarantee. -/
def lowerBound {α : Type} (p : α → Bool) : List α → Nat
  | [] => 0
  | x :: xs => if p x then lowerBound p xs + 1 else 0

/-- `std::vector::insert` at an iterator, as a position:
the list with `a` placed at index `i`. -/
def insertAt {α : Type} (l : List α) (i : Nat) (a : α) : List α :=
  l.take i ++ a :: l.drop i

/-- `std::vector::erase` at an iterator, as a position:
the list with the element at index `i` removed. -/
def eraseAt {α : Type} (l : List α) (i : Nat) : List α :=
  l.take i ++ l.drop (i + 1)

/-- The assignment loop shared by both bulk inserts
(`for (auto s = first; s != last; ++s, ++d) *d = ...;`): overwrite
positions `pos, pos+1, ...` of `dst` with the elements of `src`. -/
def writeFrom {α : Type} (dst : List α) (pos : Nat) : List α → List α
  | [] => dst
  | a :: src => writeFrom (dst.set pos a) (pos + 1) src

/-- The `std::lower_bound(members_.begin(), members_.end(), s,
member_lt_string(length))` call shared by `find`, `set` and `erase`
(the local variable `it` of each of them). -/
def object_rule.lower_bound {β : Type} (l : List (Str × β)) (s : Str) : Nat :=
  lowerBound (fun m => member_lt_string m s) l

/-- `object_rule::find(name, length)` (jcr_rules.hpp:626):
`lower_bound` by name, then an exact-name check; the returned iterator is
an index and `none` is the end sentinel. -/
def object_rule.find {β : Type} (l : List (Str × β)) (s : Str) : Option Nat :=
  if h : object_rule.lower_bound l s < l.length then
    if name_eq_string (l.get ⟨object_rule.lower_bound l s, h⟩).1 s then
      some (object_rule.lower_bound l s)
    else none
  else none

/-- The member the iterator returned by `find` designates (`none` for the
end sentinel). -/
def object_rule.findEntry {β : Type} (l : List (Str × β)) (s : Str) :
    Option (Str × β) :=
  (object_rule.find l s).bind fun i => l[i]?

/-- The insertion tail every `set` overload repeats verbatim
(jcr_rules.hpp:714, 731, 748, 776, 811, 839, 872, 905), acting on the
iterator `it` each overload computed: at the end → `push_back`; on an
exact name match → replace the mapped value in place (the stored name is
kept); otherwise insert before `it`. -/
def object_rule.set_at {β : Type} (l : List (Str × β)) (s : Str) (value : β)
    (it : Nat) : List (Str × β) :=
  if h : it < l.length then
    if name_eq_string (l.get ⟨it, h⟩).1 s then
      l.set it ((l.get ⟨it, h⟩).1, value)
    else
      insertAt l it (s, value)
  else
    l ++ [(s, value)]

/-- `object_rule::set(s, length, value)` (jcr_rules.hpp:711):
`lower_bound` over the whole member list, then the insertion tail. -/
def object_rule.set {β : Type} (l : List (Str × β)) (s : Str) (value : β) :
    List (Str × β) :=
  object_rule.set_at l s value (object_rule.lower_bound l s)

/-- `object_rule::set(hint, s, length, value)` (jcr_rules.hpp:799): when the
hint is not the end sentinel and its name is `≤` the new name, the
`lower_bound` search runs on `[hint, end)` only; otherwise on the whole
range.  The tail (push_back / in-place update / insert) is the same
insertion tail as the unhinted `set`. -/
def object_rule.set_hinted {β : Type} (l : List (Str × β)) (hint : Nat)
    (s : Str) (value : β) : List (Str × β) :=
  object_rule.set_at l s value
    (if h : hint < l.length then
      if name_le_string (l.get ⟨hint, h⟩).1 s then
        hint + lowerBound (fun m => member_lt_string m s) (l.drop hint)
      else
        object_rule.lower_bound l s
    else
      object_rule.lower_bound l s)

/-- `object_rule::erase(name, length)` (jcr_rules.hpp:682): `lower_bound`;
erase on an exact name match, no-op otherwise. -/
def object_rule.erase {β : Type} (l : List (Str × β)) (s : Str) :
    List (Str × β) :=
  if h : object_rule.lower_bound l s < l.length then
    if name_eq_string (l.get ⟨object_rule.lower_bound l s, h⟩).1 s then
      eraseAt l (object_rule.lower_bound l s)
    else l
  else l

/-- `object_rule::insert(first, last, pred)` (jcr_rules.hpp:697): resize to
the old size plus the input count (default-filling the new slots, which the
assignment loop then overwrites completely), copy the input range to the
tail, and re-sort everything with `member_lt_member`.  `std::sort` is
modelled by its contract — a permutation of the input ordered by the
comparator — realised here by a merge sort. -/
def object_rule.insert {β : Type} [Inhabited β] (l src : List (Str × β)) :
    List (Str × β) :=
  let appended :=
    writeFrom (l ++ List.replicate src.length default) l.length src
  appended.mergeSort fun a b => ! member_lt_member b a

/-- `object_rule::at(name)` (jcr_rules.hpp:652): `find`, then an
"out of range" failure at the end sentinel, the found member's mapped value
otherwise. -/
def object_rule.atName {β : Type} (l : List (Str × β)) (name : Str) :
    Except String β :=
  match object_rule.findEntry l name with
  | some m => Except.ok m.2
  | none => Except.error "Member not found."

/-- Modelled from the spec: the read-only document value of the surrounding
library (`jsoncons.hpp`, not under `src/`) — a tagged value with the
capability set of spec §6.  The `is_*` accessors are type-tag checks and
the `as_*` accessors return the stored payload when the tag matches and a
zero/empty default otherwise. -/
inductive Json where
  | null
  | bool (b : Bool)
  | integer (v : Int)
  | uinteger (v : Nat)
  | double (bits : Nat)
  | string (s : Str)
  | array (elements : List Json)
  | object (members : List (Str × Json))

def Json.is_null : Json → Bool
  | .null => true
  | _ => false

def Json.is_bool : Json → Bool
  | .bool _ => true
  | _ => false

def Json.is_integer : Json → Bool
  | .integer _ => true
  | _ => false

def Json.is_uinteger : Json → Bool
  | .uinteger _ => true
  | _ => false

def Json.is_double : Json → Bool
  | .double _ => true
  | _ => false

def Json.is_string : Json → Bool
  | .string _ => true
  | _ => false

def Json.is_array : Json → Bool
  | .array _ => true
  | _ => false

def Json.is_object : Json → Bool
  | .object _ => true
  | _ => false

def Json.as_bool : Json → Bool
  | .bool b => b
  | _ => false

def Json.as_integer : Json → Int
  | .integer v => v
  | _ => 0

def Json.as_uinteger : Json → Nat
  | .uinteger v => v
  | _ => 0

def Json.as_double_bits : Json → Nat
  | .double bits => bits
  | _ => 0

def Json.as_string : Json → Str
  | .string s => s
  | _ => []

def Json.array_value : Json → List Json
  | .array elements => elements
  | _ => []

def Json.object_value : Json → List (Str × Json)
  | .object members => members
  | _ => []

/-- The closed set of rule-node variants of `jcr_rules.hpp`: one
constructor per concrete `rule<JsonT>` subclass, carrying that class's
payload.  Composite kinds own their children by value here; the pointer
structure of `shared_ptr` ownership is treated separately by the heap
model below. -/
inductive Rule where
  | any_object
  | any_integer
  | string_rule (s : Str)
  | any_string
  | null_rule
  | bool_rule (val : Bool)
  | double_rule (bits : Nat) (precision : Nat)
  | integer_rule (val : Int)
  | uinteger_rule (val : Nat)
  | integer_range_rule (lo hi : Int)
  | uinteger_range_rule (lo hi : Nat)
  | array_rule (elements : List Rule)
  | object_rule (members : List (Str × Rule))

/-- Placeholder for the default-constructed member a `resize` puts into the
new slots of the bulk inserts; every such slot is overwritten by the
assignment loop before it is ever read, so its value is irrelevant. -/
instance : Inhabited Rule := ⟨Rule.null_rule⟩

/-- `array_rule::insert(first, last)` (jcr_rules.hpp:355): resize to the
old size plus the input count, then overwrite the new tail slots with the
second components (the rules) of the input pairs, in range order. -/
def array_rule.insert (elements : List Rule) (src : List (Str × Rule)) :
    List Rule :=
  writeFrom (elements ++ List.replicate src.length default) elements.length
    (src.map Prod.snd)

theorem object_rule.findEntry_mem {β : Type} {l : List (Str × β)} {s : Str}
    {m : Str × β} (h : object_rule.findEntry l s = some m) : m ∈ l := by
  unfold object_rule.findEntry at h
  cases hf : object_rule.find l s with
  | none => rw [hf] at h; rw [Option.none_bind] at h; exact absurd h (by simp)
  | some i =>
    rw [hf] at h
    rw [Option.some_bind] at h
    exact List.getElem?_mem h

/-- `rule::validate` (jcr_rules.hpp): the virtual dispatch, one case per
subclass, each the literal predicate body.

* `any_integer_rule::validate` (line 85) is `val.is_integer() ||
  val.as_uinteger()` — the second operand converts the numeric value to
  `bool`, so it is `as_uinteger ≠ 0`, not a type check.
* `array_rule::validate` (line 372) binds `j.array_value()` and returns
  `false` unconditionally.
* `object_rule::validate` (line 543) returns `false` for the empty object
  view, otherwise demands, for every member of the document object, that
  `find` locates a rule of that name which validates the member's value.
* Double equality is modelled as bit-pattern equality; no claim depends on
  double semantics. -/
def Rule.validate : Rule → Json → Bool
  | .any_object, j => j.is_object
  | .any_integer, j => j.is_integer || (j.as_uinteger != 0)
  | .string_rule s, j => j.is_string && name_eq_string j.as_string s
  | .any_string, j => j.is_string
  | .null_rule, j => j.is_null
  | .bool_rule b, j => j.is_bool && (j.as_bool == b)
  | .double_rule bits _, j => j.is_double && (j.as_double_bits == bits)
  | .integer_rule v, j => j.is_integer && (j.as_integer == v)
  | .uinteger_rule v, j => j.is_uinteger && (j.as_uinteger == v)
  | .integer_range_rule lo hi, j =>
      j.is_integer && decide (lo ≤ j.as_integer) && decide (j.as_integer ≤ hi)
  | .uinteger_range_rule lo hi, j =>
      j.is_uinteger && decide (lo ≤ j.as_uinteger) && decide (j.as_uinteger ≤ hi)
  | .array_rule _, _ => false
  | .object_rule members, j =>
      let val := j.object_value
      decide (0 < val.length) && val.all fun dm =>
        match hf : object_rule.findEntry members dm.1 with
        | some m => Rule.validate m.2 dm.2
        | none => false
termination_by r _ => sizeOf r
decreasing_by
  have hmem : m ∈ members := object_rule.findEntry_mem hf
  have h1 : sizeOf m < sizeOf members := List.sizeOf_lt_of_mem hmem
  have h2 : sizeOf m.2 < sizeOf m := by
    cases m with
    | mk a b =>
      show sizeOf b < sizeOf (a, b)
      rw [Prod.mk.sizeOf_spec]
      omega
  simp only [Rule.object_rule.sizeOf_spec]
  omega

/-- A discrete (single-member) mutation of the object rule container, as in
spec §8: a `set(name, value)` or an `erase(name)` — bulk insert excluded. -/
inductive ObjOp where
  | set (name : Str) (value : Rule)
  | erase (name : Str)

/-- Apply one discrete operation to the member list. -/
def applyOp (l : List (Str × Rule)) : ObjOp → List (Str × Rule)
  | .set name value => object_rule.set l name value
  | .erase name => object_rule.erase l name

/-- The member list reached from the empty container by a sequence of
discrete `set`/`erase` operations. -/
def applyOps (ops : List ObjOp) : List (Str × Rule) :=
  ops.foldl applyOp []

/-- Strict ascending byte-lexicographic order of the member names — the
container's documented core invariant. -/
def sortedKeys {β : Type} (l : List (Str × β)) : Prop :=
  l.Pairwise fun a b => a.1 < b.1

/-- Weak ascending order of the member names: what survives a bulk insert,
which keeps duplicates. -/
def sortedKeysLe {β : Type} (l : List (Str × β)) : Prop :=
  l.Pairwise fun a b => a.1 ≤ b.1

instance {β : Type} (l : List (Str × β)) : Decidable (sortedKeys l) := by
  unfold sortedKeys; infer_instance

instance {β : Type} (l : List (Str × β)) : Decidable (sortedKeysLe l) := by
  unfold sortedKeysLe; infer_instance

/-- The linear left-to-right scan the spec compares `find` against: the
index of the first member whose name equals `s`. -/
def linearFindIdx {β : Type} (l : List (Str × β)) (s : Str) : Option Nat :=
  match l with
  | [] => none
  | m :: rest =>
    if name_eq_string m.1 s then some 0
    else (linearFindIdx rest s).map (· + 1)

/-- A rule node as it exists in memory: the per-class payload, with the
`shared_ptr` children of the composite kinds represented by heap
addresses.  This models the pointer structure that the pure `Rule` tree
abstracts away, which is what the `clone` claim is about. -/
inductive HNode where
  | any_object
  | any_integer
  | string_rule (s : Str)
  | any_string
  | null_rule
  | bool_rule (val : Bool)
  | double_rule (bits : Nat) (precision : Nat)
  | integer_rule (val : Int)
  | uinteger_rule (val : Nat)
  | integer_range_rule (lo hi : Int)
  | uinteger_range_rule (lo hi : Nat)
  | array_rule (elements : List Nat)
  | object_rule (members : List (Str × Nat))

/-- The heap of rule nodes; an address is an index and allocation appends. -/
abbrev Heap := List HNode

/-- `rule::clone` (every override in jcr_rules.hpp): each subclass
allocates exactly one new node copying its own payload — the leaf kinds
copy their value, and `array_rule::clone`/`object_rule::clone`
(jcr_rules.hpp:367, 533) invoke the copy constructor, which copies the
element/member vector of `shared_ptr` children verbatim.  In heap terms the
new node is a verbatim copy of the old one, child addresses included.  An
invalid address (no object to clone) leaves the heap unchanged. -/
def rule_clone (h : Heap) (a : Nat) : Heap × Nat :=
  match h[a]? with
  | some node => (h ++ [node], h.length)
  | none => (h, a)

/-- The child addresses a node holds. -/
def HNode.children : HNode → List Nat
  | .array_rule elements => elements
  | .object_rule members => members.map Prod.snd
  | _ => []

/-- A heap is closed when every child address points inside the heap — the
case for any heap built from live `shared_ptr`s. -/
def closedHeap (h : Heap) : Prop :=
  ∀ node ∈ h, ∀ c ∈ node.children, c < h.length

instance (h : Heap) : Decidable (closedHeap h) := by
  unfold closedHeap; infer_instance

/-- `rule::validate` read off the heap: the same dispatch as
`Rule.validate`, resolving child addresses through the heap, with a fuel
bound on the recursion depth. -/
def hvalidate (h : Heap) : Nat → Nat → Json → Bool
  | 0, _, _ => false
  | fuel + 1, a, j =>
    match h[a]? with
    | none => false
    | some .any_object => j.is_object
    | some .any_integer => j.is_integer || (j.as_uinteger != 0)
    | some (.string_rule s) => j.is_string && name_eq_string j.as_string s
    | some .any_string => j.is_string
    | some .null_rule => j.is_null
    | some (.bool_rule b) => j.is_bool && (j.as_bool == b)
    | some (.double_rule bits _) => j.is_double && (j.as_double_bits == bits)
    | some (.integer_rule v) => j.is_integer && (j.as_integer == v)
    | some (.uinteger_rule v) => j.is_uinteger && (j.as_uinteger == v)
    | some (.integer_range_rule lo hi) =>
        j.is_integer && decide (lo ≤ j.as_integer) && decide (j.as_integer ≤ hi)
    | some (.uinteger_range_rule lo hi) =>
        j.is_uinteger && decide (lo ≤ j.as_uinteger) && decide (j.as_uinteger ≤ hi)
    | some (.array_rule _) => false
    | some (.object_rule members) =>
        let val := j.object_value
        decide (0 < val.length) && val.all fun dm =>
          match object_rule.findEntry members dm.1 with
          | some m => hvalidate h fuel m.2 dm.2
          | none => false

theorem lowerBound_le_length {α : Type} (p : α → Bool) (l : List α) :
    lowerBound p l ≤ l.length := by
  induction l with
  | nil => simp [lowerBound]
  | cons x xs ih =>
    simp only [lowerBound, List.length_cons]
    split
    · omega
    · omega

theorem lowerBound_true_of_lt {α : Type} (p : α → Bool) (l : List α) :
    ∀ j (hj : j < l.length), j < lowerBound p l → p l[j] = true := by
  induction l with
  | nil => intro j hj _; simp at hj
  | cons x xs ih =>
    intro j hj hlt
    cases hpx : p x with
    | false => simp [lowerBound, hpx] at hlt
    | true =>
      simp only [lowerBound, hpx, if_true] at hlt
      cases j with
      | zero => simpa using hpx
      | succ j' =>
        have hj' : j' < xs.length := by simpa using hj
        simpa using ih j' hj' (by omega)

theorem lowerBound_false_self {α : Type} (p : α → Bool) (l : List α)
    (h : lowerBound p l < l.length) : p (l.get ⟨lowerBound p l, h⟩) = false := by
  induction l with
  | nil => simp at h
  | cons x xs ih =>
    cases hpx : p x with
    | false => simpa [lowerBound, hpx] using hpx
    | true =>
      have h' : lowerBound p xs < xs.length := by
        simpa [lowerBound, hpx] using h
      simpa [lowerBound, hpx] using ih h'

theorem lowerBound_le_of_false {α : Type} {p : α → Bool} {l : List α} {j : Nat}
    (hj : j < l.length) (hf : p l[j] = false) : lowerBound p l ≤ j := by
  by_contra hcon
  push_neg at hcon
  have := lowerBound_true_of_lt p l j hj hcon
  rw [hf] at this
  exact absurd this (by simp)

theorem lowerBound_eq_add_of_forall_true {α : Type} (p : α → Bool)
    (l : List α) (k : Nat) (hk : k ≤ l.length)
    (hall : ∀ j (hj : j < l.length), j < k → p l[j] = true) :
    lowerBound p l = k + lowerBound p (l.drop k) := by
  induction k generalizing l with
  | zero => simp
  | succ k' ih =>
    cases l with
    | nil => simp at hk
    | cons x xs =>
      have hx : p x = true := hall 0 (by simp) (by omega)
      have hrec := ih xs (by simpa using hk) (fun j hj hlt => by
        simpa using hall (j + 1) (by simpa using hj) (by omega))
      simp only [lowerBound, hx, if_true, List.drop_succ_cons]
      omega

theorem writeFrom_append_replicate {α : Type} (src : List α) :
    ∀ (xs : List α) (d : α),
      writeFrom (xs ++ List.replicate src.length d) xs.length src = xs ++ src := by
  induction src with
  | nil => intro xs d; simp [writeFrom]
  | cons a src ih =>
    intro xs d
    simp only [writeFrom, List.length_cons, List.replicate_succ]
    have hset : (xs ++ d :: List.replicate src.length d).set xs.length a
        = (xs ++ [a]) ++ List.replicate src.length d := by
      rw [List.set_append]
      simp
    rw [hset]
    have hlen : xs.length + 1 = (xs ++ [a]).length := by simp
    rw [hlen, ih (xs ++ [a]) d]
    simp


theorem object_rule.lower_bound_le_length {β : Type} (l : List (Str × β))
    (s : Str) : object_rule.lower_bound l s ≤ l.length :=
  lowerBound_le_length _ l

theorem object_rule.lower_bound_lt_keys {β : Type} (l : List (Str × β))
    (s : Str) : ∀ j (hj : j < l.length),
      j < object_rule.lower_bound l s → l[j].1 < s := by
  intro j hj hlt
  have := lowerBound_true_of_lt (fun m => member_lt_string m s) l j hj hlt
  simpa [member_lt_string] using this

theorem object_rule.lower_bound_not_lt {β : Type} (l : List (Str × β))
    (s : Str) (h : object_rule.lower_bound l s < l.length) :
    ¬ l[object_rule.lower_bound l s].1 < s := by
  have := lowerBound_false_self (fun m => member_lt_string m s) l h
  simpa [member_lt_string] using this

theorem object_rule.lower_bound_le_of_not_lt {β : Type} {l : List (Str × β)}
    {s : Str} {j : Nat} (hj : j < l.length) (hf : ¬ l[j].1 < s) :
    object_rule.lower_bound l s ≤ j :=
  lowerBound_le_of_false hj (by simpa [member_lt_string] using hf)

theorem object_rule.find_some_spec {β : Type} {l : List (Str × β)} {s : Str}
    {i : Nat} (h : object_rule.find l s = some i) :
    i = object_rule.lower_bound l s ∧ ∃ hi : i < l.length, l[i].1 = s := by
  unfold object_rule.find at h
  split at h
  next hlt =>
    split at h
    next heq =>
      obtain rfl : _ = i := Option.some.inj h
      refine ⟨rfl, hlt, ?_⟩
      simpa [name_eq_string] using heq
    next => exact absurd h (by simp)
  next => exact absurd h (by simp)

theorem object_rule.find_none_spec {β : Type} {l : List (Str × β)} {s : Str}
    (h : object_rule.find l s = none)
    (hlt : object_rule.lower_bound l s < l.length) :
    l[object_rule.lower_bound l s].1 ≠ s := by
  unfold object_rule.find at h
  rw [dif_pos hlt] at h
  split at h
  next => exact absurd h (by simp)
  next hne => simpa [name_eq_string] using hne

theorem object_rule.find_eq_some_of_sorted {β : Type} {l : List (Str × β)}
    (hs : sortedKeys l) {j : Nat} (hj : j < l.length) {s : Str}
    (hname : l[j].1 = s) : object_rule.find l s = some j := by
  have hlb_le : object_rule.lower_bound l s ≤ j :=
    object_rule.lower_bound_le_of_not_lt hj (by rw [hname]; exact lt_irrefl s)
  have hlt : object_rule.lower_bound l s < l.length := lt_of_le_of_lt hlb_le hj
  have heq : object_rule.lower_bound l s = j := by
    rcases Nat.lt_or_ge (object_rule.lower_bound l s) j with hlt2 | hge
    · exfalso
      have hordered := (List.pairwise_iff_getElem.mp hs)
        (object_rule.lower_bound l s) j hlt hj hlt2
      rw [hname] at hordered
      exact object_rule.lower_bound_not_lt l s hlt hordered
    · omega
  subst heq
  unfold object_rule.find
  rw [dif_pos hlt, if_pos (by simpa [name_eq_string] using hname)]

theorem object_rule.find_none_not_mem_of_sortedLe {β : Type}
    {l : List (Str × β)} (hs : sortedKeysLe l) {s : Str}
    (h : object_rule.find l s = none) : ∀ m ∈ l, m.1 ≠ s := by
  intro m hm hname
  obtain ⟨j, hj, rfl⟩ := List.mem_iff_getElem.mp hm
  have hlb_le : object_rule.lower_bound l s ≤ j :=
    object_rule.lower_bound_le_of_not_lt hj (by rw [hname]; exact lt_irrefl s)
  have hlt : object_rule.lower_bound l s < l.length := lt_of_le_of_lt hlb_le hj
  have hne := object_rule.find_none_spec h hlt
  rcases Nat.lt_or_ge (object_rule.lower_bound l s) j with hlt2 | hge
  · have hle := (List.pairwise_iff_getElem.mp hs)
      (object_rule.lower_bound l s) j hlt hj hlt2
    rw [hname] at hle
    exact hne (le_antisymm hle (not_lt.mp (object_rule.lower_bound_not_lt l s hlt)))
  · have heq : object_rule.lower_bound l s = j := le_antisymm hlb_le hge
    subst heq
    exact hne hname

theorem object_rule.findEntry_some_spec {β : Type} {l : List (Str × β)}
    {s : Str} {m : Str × β} (h : object_rule.findEntry l s = some m) :
    m ∈ l ∧ m.1 = s := by
  refine ⟨object_rule.findEntry_mem h, ?_⟩
  unfold object_rule.findEntry at h
  cases hf : object_rule.find l s with
  | none => rw [hf, Option.none_bind] at h; exact absurd h (by simp)
  | some i =>
    rw [hf, Option.some_bind] at h
    obtain ⟨_, hi, hname⟩ := object_rule.find_some_spec hf
    rw [List.getElem?_eq_getElem hi] at h
    obtain rfl : l[i] = m := Option.some.inj h
    exact hname

theorem object_rule.findEntry_eq_none_iff {β : Type} {l : List (Str × β)}
    {s : Str} :
    object_rule.findEntry l s = none ↔ object_rule.find l s = none := by
  unfold object_rule.findEntry
  cases hf : object_rule.find l s with
  | none => simp
  | some i =>
    obtain ⟨_, hi, _⟩ := object_rule.find_some_spec hf
    simp [List.getElem?_eq_getElem hi]

theorem object_rule.findEntry_eq_some_of_sorted {β : Type}
    {l : List (Str × β)} (hs : sortedKeys l) {m : Str × β} (hm : m ∈ l)
    {s : Str} (hname : m.1 = s) : object_rule.findEntry l s = some m := by
  obtain ⟨j, hj, rfl⟩ := List.mem_iff_getElem.mp hm
  unfold object_rule.findEntry
  rw [object_rule.find_eq_some_of_sorted hs hj hname, Option.some_bind,
    List.getElem?_eq_getElem hj]

theorem mem_take_getElem {α : Type} {l : List α} {i : Nat} {a : α}
    (h : a ∈ l.take i) : ∃ j, ∃ hj : j < l.length, j < i ∧ l[j] = a := by
  obtain ⟨k, hk, hval⟩ := List.mem_iff_getElem.mp h
  have hk2 : k < l.length ∧ k < i := by
    have := hk
    simp only [List.length_take] at this
    omega
  refine ⟨k, hk2.1, hk2.2, ?_⟩
  rw [← hval, List.getElem_take]

theorem mem_drop_getElem {α : Type} {l : List α} {i : Nat} {a : α}
    (h : a ∈ l.drop i) : ∃ j, ∃ hj : j < l.length, i ≤ j ∧ l[j] = a := by
  obtain ⟨k, hk, hval⟩ := List.mem_iff_getElem.mp h
  have hk2 : i + k < l.length := by
    have := hk
    simp only [List.length_drop] at this
    omega
  refine ⟨i + k, hk2, by omega, ?_⟩
  rw [← hval, List.getElem_drop]

theorem sortedKeys_insertAt {β : Type} {l : List (Str × β)}
    (hs : sortedKeys l) {i : Nat} {m : Str × β}
    (hbefore : ∀ j (hj : j < l.length), j < i → l[j].1 < m.1)
    (hafter : ∀ j (hj : j < l.length), i ≤ j → m.1 < l[j].1) :
    sortedKeys (insertAt l i m) := by
  have hpw := List.pairwise_iff_getElem.mp hs
  unfold insertAt sortedKeys
  rw [List.pairwise_append]
  refine ⟨List.Pairwise.sublist (List.take_sublist i l) hs, ?_, ?_⟩
  · rw [List.pairwise_cons]
    refine ⟨?_, List.Pairwise.sublist (List.drop_sublist i l) hs⟩
    intro b hb
    obtain ⟨j, hj, hge, rfl⟩ := mem_drop_getElem hb
    exact hafter j hj hge
  · intro a ha b hb
    obtain ⟨j1, hj1, hlt1, rfl⟩ := mem_take_getElem ha
    rcases List.mem_cons.mp hb with rfl | hb2
    · exact hbefore j1 hj1 hlt1
    · obtain ⟨j2, hj2, hge2, rfl⟩ := mem_drop_getElem hb2
      exact hpw j1 j2 hj1 hj2 (by omega)

theorem eraseAt_sublist {α : Type} (l : List α) (i : Nat) :
    (eraseAt l i).Sublist l := by
  unfold eraseAt
  have h1 : l.drop (i + 1) = (l.drop i).drop 1 := by
    rw [List.drop_drop]
  have h2 : (l.take i ++ l.drop (i + 1)).Sublist (l.take i ++ l.drop i) := by
    rw [h1]
    exact List.Sublist.append_left (List.drop_sublist 1 (l.drop i)) (l.take i)
  rw [List.take_append_drop] at h2
  exact h2

theorem sortedKeys_set {β : Type} {l : List (Str × β)} (hs : sortedKeys l)
    (s : Str) (v : β) : sortedKeys (object_rule.set l s v) := by
  have hpw := List.pairwise_iff_getElem.mp hs
  unfold object_rule.set object_rule.set_at
  split
  next hlt =>
    split
    next heq =>
      have hkey : ∀ (k : Nat)
          (hk1 : k < (l.set (object_rule.lower_bound l s)
            ((l.get ⟨object_rule.lower_bound l s, hlt⟩).1, v)).length)
          (hk2 : k < l.length),
          (l.set (object_rule.lower_bound l s)
            ((l.get ⟨object_rule.lower_bound l s, hlt⟩).1, v))[k].1
            = l[k].1 := by
        intro k hk1 hk2
        rw [List.getElem_set]
        split
        next h => subst h; rfl
        next => rfl
      apply List.pairwise_iff_getElem.mpr
      intro a b ha hb hab
      rw [hkey a ha (by simpa using ha), hkey b hb (by simpa using hb)]
      exact hpw a b (by simpa using ha) (by simpa using hb) hab
    next hne =>
      have hname_ne : l[object_rule.lower_bound l s].1 ≠ s := by
        simpa [name_eq_string] using hne
      have hge_s : s ≤ l[object_rule.lower_bound l s].1 :=
        not_lt.mp (object_rule.lower_bound_not_lt l s hlt)
      apply sortedKeys_insertAt hs
      · intro j hj hjlt
        exact object_rule.lower_bound_lt_keys l s j hj hjlt
      · intro j hj hge
        rcases Nat.eq_or_lt_of_le hge with heq | hlt2
        · subst heq
          exact lt_of_le_of_ne hge_s (Ne.symm hname_ne)
        · exact lt_of_le_of_lt hge_s (hpw _ j hlt hj hlt2)
  next hnlt =>
    apply List.pairwise_append.mpr
    refine ⟨hs, by simp, ?_⟩
    intro a ha b hb
    rcases List.mem_singleton.mp hb with rfl
    obtain ⟨j, hj, rfl⟩ := List.mem_iff_getElem.mp ha
    have hlb : l.length ≤ object_rule.lower_bound l s := not_lt.mp hnlt
    exact object_rule.lower_bound_lt_keys l s j hj (by omega)

theorem sortedKeys_erase {β : Type} {l : List (Str × β)} (hs : sortedKeys l)
    (s : Str) : sortedKeys (object_rule.erase l s) := by
  unfold object_rule.erase
  split
  next =>
    split
    next => exact List.Pairwise.sublist (eraseAt_sublist l _) hs
    next => exact hs
  next => exact hs

theorem sortedKeys_foldl (ops : List ObjOp) :
    ∀ l, sortedKeys l → sortedKeys (ops.foldl applyOp l) := by
  induction ops with
  | nil => intro l hl; exact hl
  | cons op ops ih =>
    intro l hl
    apply ih
    cases op with
    | set name value => exact sortedKeys_set hl name value
    | erase name => exact sortedKeys_erase hl name

theorem sortedKeys_applyOps (ops : List ObjOp) : sortedKeys (applyOps ops) :=
  sortedKeys_foldl ops [] (by simp [sortedKeys])

theorem sortedKeysLe_of_sortedKeys {β : Type} {l : List (Str × β)}
    (hs : sortedKeys l) : sortedKeysLe l :=
  hs.imp fun h => le_of_lt h

theorem linearFindIdx_eq_none_iff {β : Type} (l : List (Str × β)) (s : Str) :
    linearFindIdx l s = none ↔ ∀ m ∈ l, m.1 ≠ s := by
  induction l with
  | nil => simp [linearFindIdx]
  | cons m rest ih =>
    simp only [linearFindIdx]
    by_cases h : name_eq_string m.1 s = true
    · have hm : m.1 = s := by simpa [name_eq_string] using h
      rw [if_pos h]
      constructor
      · intro hcon; exact absurd hcon (by simp)
      · intro hall; exact absurd hm (hall m (by simp))
    · have hm : m.1 ≠ s := by simpa [name_eq_string] using h
      rw [if_neg h]
      constructor
      · intro hnone
        have hrest := ih.mp (by simpa using hnone)
        intro x hx
        rcases List.mem_cons.mp hx with rfl | hx2
        · exact hm
        · exact hrest x hx2
      · intro hall
        have : linearFindIdx rest s = none :=
          ih.mpr fun x hx => hall x (List.mem_cons_of_mem m hx)
        simp [this]

theorem linearFindIdx_eq_some_of {β : Type} {l : List (Str × β)} {s : Str}
    {i : Nat} (hi : i < l.length) (hname : l[i].1 = s)
    (hprior : ∀ j (hj : j < l.length), j < i → l[j].1 ≠ s) :
    linearFindIdx l s = some i := by
  induction l generalizing i with
  | nil => simp at hi
  | cons m rest ih =>
    cases i with
    | zero =>
      simp only [linearFindIdx]
      rw [if_pos (by simpa [name_eq_string] using hname)]
    | succ i' =>
      have hm : m.1 ≠ s := hprior 0 (by simp) (by omega)
      simp only [linearFindIdx]
      rw [if_neg (by simpa [name_eq_string] using hm)]
      have hrec := ih (by simpa using hi) (by simpa using hname)
        (fun j hj hjlt => by simpa using hprior (j + 1) (by simpa using hj) (by omega))
      rw [hrec]
      rfl

theorem find_eq_linearFindIdx_of_sorted {β : Type} {l : List (Str × β)}
    (hs : sortedKeys l) (s : Str) :
    object_rule.find l s = linearFindIdx l s := by
  cases hf : object_rule.find l s with
  | some i =>
    obtain ⟨_, hi, hname⟩ := object_rule.find_some_spec hf
    obtain ⟨hlb, -⟩ := object_rule.find_some_spec hf
    symm
    apply linearFindIdx_eq_some_of hi hname
    intro j hj hjlt
    have : l[j].1 < s := by
      apply object_rule.lower_bound_lt_keys l s j hj
      omega
    exact ne_of_lt this
  | none =>
    symm
    rw [linearFindIdx_eq_none_iff]
    exact object_rule.find_none_not_mem_of_sortedLe
      (sortedKeysLe_of_sortedKeys hs) hf

theorem hinted_lower_bound_eq {β : Type} {l : List (Str × β)}
    (hs : sortedKeys l) {hint : Nat} (hhint : hint < l.length) {s : Str}
    (hle : (l.get ⟨hint, hhint⟩).1 ≤ s) :
    hint + lowerBound (fun m => member_lt_string m s) (l.drop hint)
      = object_rule.lower_bound l s := by
  have hpw := List.pairwise_iff_getElem.mp hs
  unfold object_rule.lower_bound
  symm
  apply lowerBound_eq_add_of_forall_true _ l hint (le_of_lt hhint)
  intro j hj hjlt
  have h1 : l[j].1 < l[hint].1 := hpw j hint hj hhint hjlt
  have h2 : l[j].1 < s := lt_of_lt_of_le h1 hle
  simpa [member_lt_string] using h2

theorem validate_object_eq (R : List (Str × Rule)) (j : Json) :
    Rule.validate (.object_rule R) j =
      (decide (0 < (j.object_value).length) && (j.object_value).all fun dm =>
        match object_rule.findEntry R dm.1 with
        | some m => Rule.validate m.2 dm.2
        | none => false) := by
  rw [Rule.validate]
  congr 1
  congr 1
  funext dm
  split
  next m heq => rw [heq]
  next heq => rw [heq]

theorem hvalidate_congr_addr (h : Heap) (fuel : Nat) {x y : Nat}
    (hxy : h[x]? = h[y]?) (j : Json) :
    hvalidate h fuel x j = hvalidate h fuel y j := by
  cases fuel with
  | zero => rfl
  | succ fuel =>
    simp only [hvalidate]
    rw [hxy]

theorem hvalidate_append (h ext : Heap) (hc : closedHeap h) :
    ∀ fuel a j, a < h.length →
      hvalidate (h ++ ext) fuel a j = hvalidate h fuel a j := by
  intro fuel
  induction fuel with
  | zero => intro a j _; rfl
  | succ fuel ih =>
    intro a j ha
    simp only [hvalidate]
    rw [List.getElem?_append_left ha]
    cases hnode : h[a]? with
    | none => rfl
    | some node =>
      have hnodemem : node ∈ h := List.getElem?_mem hnode
      cases node with
      | object_rule members =>
        dsimp only
        congr 1
        congr 1
        funext dm
        cases hfind : object_rule.findEntry members dm.1 with
        | none => rfl
        | some m =>
          apply ih
          apply hc _ hnodemem
          show m.2 ∈ (HNode.object_rule members).children
          unfold HNode.children
          exact List.mem_map_of_mem Prod.snd (object_rule.findEntry_mem hfind)
      | any_object => rfl
      | any_integer => rfl
      | string_rule s => rfl
      | any_string => rfl
      | null_rule => rfl
      | bool_rule b => rfl
      | double_rule bits precision => rfl
      | integer_rule v => rfl
      | uinteger_rule v => rfl
      | integer_range_rule lo hi => rfl
      | uinteger_range_rule lo hi => rfl
      | array_rule elements => rfl

/-- C2: starting from the empty container, any sequence of discrete
`set`/`erase` operations (bulk insert excluded) leaves the member list in
strict ascending byte-lexicographic order of names, with no duplicate
names. -/
theorem set_erase_sorted_invariant (ops : List ObjOp) :
    sortedKeys (applyOps ops) ∧ ((applyOps ops).map Prod.fst).Nodup := by
  have hs := sortedKeys_applyOps ops
  refine ⟨hs, ?_⟩
  have hlt : ((applyOps ops).map Prod.fst).Pairwise (· < ·) :=
    List.pairwise_map.mpr hs
  exact hlt.imp fun h => ne_of_lt h

/-- C3: on any container reached by discrete `set`/`erase` operations, the
binary-search `find` returns exactly what a linear left-to-right scan for
the name would return, and the end sentinel exactly when no member has the
name. -/
theorem find_eq_linear_scan (ops : List ObjOp) (s : Str) :
    object_rule.find (applyOps ops) s = linearFindIdx (applyOps ops) s ∧
    (object_rule.find (applyOps ops) s = none ↔
      ∀ m ∈ applyOps ops, m.1 ≠ s) := by
  have hs := sortedKeys_applyOps ops
  refine ⟨find_eq_linearFindIdx_of_sorted hs s, ?_, ?_⟩
  · intro hnone
    exact object_rule.find_none_not_mem_of_sortedLe
      (sortedKeysLe_of_sortedKeys hs) hnone
  · intro hall
    cases hf : object_rule.find (applyOps ops) s with
    | none => rfl
    | some i =>
      obtain ⟨_, hi, hname⟩ := object_rule.find_some_spec hf
      exact absurd hname (hall _ (List.getElem_mem hi))

/-- C6: array-rule validation never succeeds — `array_rule::validate`
binds the document's array view and returns `false` unconditionally, for
every contents of the container and every document value. -/
theorem array_rule_validate_false (elements : List Rule) (j : Json) :
    Rule.validate (.array_rule elements) j = false := by
  rw [Rule.validate]

/-- C7 (failing input): the unsigned-integer document value `0` *is* an
unsigned integer, yet `any_integer_rule::validate` rejects it — the code
reads `val.is_integer() || val.as_uinteger()`, coercing the numeric value
(here `0`) to `bool` instead of checking the unsigned type tag. -/
theorem any_integer_validate_uinteger_zero :
    Json.is_uinteger (Json.uinteger 0) = true ∧
    Rule.validate .any_integer (Json.uinteger 0) = false := by
  constructor
  · rfl
  · rw [Rule.validate]
    rfl

theorem array_insert_eq (elements : List Rule) (src : List (Str × Rule)) :
    array_rule.insert elements src = elements ++ src.map Prod.snd := by
  unfold array_rule.insert
  rw [show src.length = (src.map Prod.snd).length from
    (List.length_map src Prod.snd).symm]
  exact writeFrom_append_replicate (src.map Prod.snd) elements default

/-- C10: the polymorphic bulk insert of the array rule container appends
exactly the rule components of the input pairs, in range order, after the
original `k` elements: the first `k` positions are unchanged, position
`k + i` holds the rule of the `i`-th pair, and the new size is `k + m`. -/
theorem array_insert_frame_spec (elements : List Rule)
    (src : List (Str × Rule)) :
    (array_rule.insert elements src).length = elements.length + src.length ∧
    (array_rule.insert elements src).take elements.length = elements ∧
    ∀ i (hi : i < src.length),
      (array_rule.insert elements src)[elements.length + i]? =
        some (src.get ⟨i, hi⟩).2 := by
  rw [array_insert_eq]
  refine ⟨by simp, by simp, ?_⟩
  intro i hi
  rw [List.getElem?_append_right (by omega)]
  simp [List.getElem?_map, List.getElem?_eq_getElem, hi]

/-- C1: for an object rule container holding the documented sorted
duplicate-free invariant, `validate` is `false` on an empty document
object view, and otherwise succeeds exactly when every member of the
document object has a rule of that exact name whose validation of the
member's value succeeds; rules without a corresponding document member
never cause failure (the loop runs over the document's members only). -/
theorem object_rule_validate_spec (R : List (Str × Rule)) (j : Json)
    (hs : sortedKeys R) :
    (j.object_value = [] → Rule.validate (.object_rule R) j = false) ∧
    (Rule.validate (.object_rule R) j = true ↔
      j.object_value ≠ [] ∧
        ∀ dm ∈ j.object_value,
          ∃ r : Rule, (dm.1, r) ∈ R ∧ r.validate dm.2 = true) := by
  rw [validate_object_eq]
  constructor
  · intro hempty
    rw [hempty]
    rfl
  · rw [Bool.and_eq_true, decide_eq_true_eq, List.all_eq_true]
    constructor
    · rintro ⟨hpos, hall⟩
      refine ⟨by rw [← List.length_pos]; exact hpos, ?_⟩
      intro dm hdm
      have hval := hall dm hdm
      cases hfind : object_rule.findEntry R dm.1 with
      | none => rw [hfind] at hval; exact absurd hval (by simp)
      | some m =>
        rw [hfind] at hval
        obtain ⟨hm, hname⟩ := object_rule.findEntry_some_spec hfind
        have hpair : (dm.1, m.2) = m := by
          rw [← hname]
        refine ⟨m.2, ?_, by simpa using hval⟩
        rw [hpair]
        exact hm
    · rintro ⟨hne, hall⟩
      refine ⟨by rw [List.length_pos]; exact hne, ?_⟩
      intro dm hdm
      obtain ⟨r, hrmem, hrval⟩ := hall dm hdm
      rw [object_rule.findEntry_eq_some_of_sorted hs hrmem rfl]
      exact hrval

/-- Witness for C1: the rule container `{"a": AnyString}` (sorted and
duplicate-free) against the document `{"a": "x"}`. -/
theorem object_rule_validate_spec_witness :
    sortedKeys [(([97] : Str), Rule.any_string)] ∧
    ((Json.object [([97], Json.string [120])]).object_value = [] →
      Rule.validate (.object_rule [([97], Rule.any_string)])
        (Json.object [([97], Json.string [120])]) = false) ∧
    (Rule.validate (.object_rule [([97], Rule.any_string)])
        (Json.object [([97], Json.string [120])]) = true ↔
      (Json.object [([97], Json.string [120])]).object_value ≠ [] ∧
        ∀ dm ∈ (Json.object [([97], Json.string [120])]).object_value,
          ∃ r : Rule, (dm.1, r) ∈ [(([97] : Str), Rule.any_string)] ∧
            r.validate dm.2 = true) :=
  ⟨by decide,
    object_rule_validate_spec [([97], Rule.any_string)]
      (Json.object [([97], Json.string [120])]) (by decide)⟩

/-- C4: on a container holding the sorted duplicate-free invariant, the
hinted insertion produces exactly the member list the unhinted `set`
produces, for every hint position up to and including the end sentinel,
whether or not the hint's name is `≤` the new name. -/
theorem set_hinted_eq_set (l : List (Str × Rule)) (hs : sortedKeys l)
    (hint : Nat) (hhint : hint ≤ l.length) (s : Str) (v : Rule) :
    object_rule.set_hinted l hint s v = object_rule.set l s v := by
  unfold object_rule.set_hinted object_rule.set
  congr 1
  split
  next h1 =>
    split
    next h2 =>
      exact hinted_lower_bound_eq hs h1 (by simpa [name_le_string] using h2)
    next => rfl
  next => rfl

/-- Witness for C4: container `{"a": AnyString, "c": Null}`, hint at the
member `"a"` (whose name is `≤` the new name `"b"`), inserting `"b"`. -/
theorem set_hinted_eq_set_witness :
    sortedKeys [(([97] : Str), Rule.any_string), ([99], Rule.null_rule)] ∧
    (0 : Nat) ≤
      [(([97] : Str), Rule.any_string), ([99], Rule.null_rule)].length ∧
    object_rule.set_hinted
        [(([97] : Str), Rule.any_string), ([99], Rule.null_rule)] 0 [98]
        Rule.any_object =
      object_rule.set
        [(([97] : Str), Rule.any_string), ([99], Rule.null_rule)] [98]
        Rule.any_object :=
  ⟨by decide, by decide,
    set_hinted_eq_set [([97], Rule.any_string), ([99], Rule.null_rule)]
      (by decide) 0 (by decide) [98] Rule.any_object⟩

/-- C9: on a container whose names are in (weak) ascending order — which
every reachable container state satisfies — `at` fails with the
out-of-range error exactly when no member has the requested name, and when
a member with the name exists it returns that member's mapped rule without
failing. -/
theorem at_out_of_range_spec (l : List (Str × Rule)) (n : Str)
    (hs : sortedKeysLe l) :
    (object_rule.atName l n = Except.error "Member not found." ↔
      ∀ m ∈ l, m.1 ≠ n) ∧
    ((∃ m ∈ l, m.1 = n) →
      ∃ m ∈ l, m.1 = n ∧ object_rule.atName l n = Except.ok m.2) := by
  unfold object_rule.atName
  cases hfind : object_rule.findEntry l n with
  | some m =>
    obtain ⟨hm, hname⟩ := object_rule.findEntry_some_spec hfind
    constructor
    · constructor
      · intro hcon; exact absurd hcon (by simp)
      · intro hall; exact absurd hname (hall m hm)
    · intro _; exact ⟨m, hm, hname, rfl⟩
  | none =>
    have hnone : object_rule.find l n = none :=
      object_rule.findEntry_eq_none_iff.mp hfind
    have hall := object_rule.find_none_not_mem_of_sortedLe hs hnone
    constructor
    · exact ⟨fun _ => hall, fun _ => rfl⟩
    · rintro ⟨m, hm, hname⟩
      exact absurd hname (hall m hm)

/-- Witness for C9: the container `{"a": AnyString, "a": Null}` (weakly
sorted, duplicate names as a bulk insert can produce) and the names
`"a"` (present) and `"b"` (absent). -/
theorem at_out_of_range_spec_witness :
    sortedKeysLe [(([97] : Str), Rule.any_string), ([97], Rule.null_rule)] ∧
    ((object_rule.atName
        [(([97] : Str), Rule.any_string), ([97], Rule.null_rule)] [98] =
          Except.error "Member not found." ↔
        ∀ m ∈ [(([97] : Str), Rule.any_string), ([97], Rule.null_rule)],
          m.1 ≠ [98]) ∧
      ((∃ m ∈ [(([97] : Str), Rule.any_string), ([97], Rule.null_rule)],
          m.1 = [98]) →
        ∃ m ∈ [(([97] : Str), Rule.any_string), ([97], Rule.null_rule)],
          m.1 = [98] ∧
            object_rule.atName
              [(([97] : Str), Rule.any_string), ([97], Rule.null_rule)] [98] =
              Except.ok m.2)) :=
  ⟨by decide,
    at_out_of_range_spec
      [([97], Rule.any_string), ([97], Rule.null_rule)] [98] (by decide)⟩

theorem bulk_le_trans : ∀ a b c : Str × Rule,
    (! member_lt_member b a) = true → (! member_lt_member c b) = true →
    (! member_lt_member c a) = true := by
  intro a b c hab hbc
  simp only [member_lt_member, Bool.not_eq_true', decide_eq_false_iff_not,
    not_lt] at hab hbc ⊢
  exact le_trans hab hbc

theorem bulk_le_total : ∀ a b : Str × Rule,
    ((! member_lt_member b a) || (! member_lt_member a b)) = true := by
  intro a b
  rcases le_total a.1 b.1 with h | h
  · have hn : ¬ b.1 < a.1 := not_lt.mpr h
    simp [member_lt_member, hn]
  · have hn : ¬ a.1 < b.1 := not_lt.mpr h
    simp [member_lt_member, hn]

theorem object_rule_insert_eq (l src : List (Str × Rule)) :
    object_rule.insert l src =
      (l ++ src).mergeSort fun a b => ! member_lt_member b a := by
  show (writeFrom (l ++ List.replicate src.length default) l.length
      src).mergeSort (fun a b => ! member_lt_member b a) = _
  rw [writeFrom_append_replicate]

/-- C5: the bulk insert appends the whole input range and re-sorts: the
result has exactly `k + m` members, its names are in (weak) ascending
order, and it is a permutation of the old members together with the whole
input range — nothing is dropped or merged, so coinciding names survive as
duplicates. -/
theorem bulk_insert_spec (l src : List (Str × Rule)) :
    (object_rule.insert l src).length = l.length + src.length ∧
    sortedKeysLe (object_rule.insert l src) ∧
    (object_rule.insert l src).Perm (l ++ src) := by
  rw [object_rule_insert_eq]
  have hperm :=
    List.mergeSort_perm (l ++ src) fun a b => ! member_lt_member b a
  refine ⟨?_, ?_, hperm⟩
  · rw [hperm.length_eq, List.length_append]
  · have hsorted := List.sorted_mergeSort bulk_le_trans bulk_le_total (l ++ src)
    exact hsorted.imp fun hab => by
      simpa [member_lt_member, not_lt] using hab

/-- C8 (amended): `clone` of a live rule node allocates exactly one new
node — a verbatim copy of the cloned node's payload, child addresses
included, so for Array/Object nodes the children are *shared* with the
original, not recursively cloned — and the fresh top-level node has
validation behavior identical to the original at every recursion depth
and every document value. -/
theorem clone_copies_node_spec (h : Heap) (a : Nat) (node : HNode)
    (hc : closedHeap h) (ha : h[a]? = some node) :
    rule_clone h a = (h ++ [node], h.length) ∧
    (h ++ [node])[h.length]? = some node ∧
    ∀ fuel j, hvalidate (h ++ [node]) fuel h.length j =
      hvalidate h fuel a j := by
  obtain ⟨halt, -⟩ := List.getElem?_eq_some.mp ha
  refine ⟨?_, ?_, ?_⟩
  · unfold rule_clone
    rw [ha]
  · rw [List.getElem?_concat_length]
  · intro fuel j
    have h1 : (h ++ [node])[h.length]? = (h ++ [node])[a]? := by
      rw [List.getElem?_concat_length, List.getElem?_append_left halt, ha]
    calc hvalidate (h ++ [node]) fuel h.length j
        = hvalidate (h ++ [node]) fuel a j :=
          hvalidate_congr_addr _ fuel h1 j
      _ = hvalidate h fuel a j :=
          hvalidate_append h [node] hc fuel a j halt

/-- Witness for C8 (amended): a one-node heap holding an AnyString rule. -/
theorem clone_copies_node_spec_witness :
    closedHeap [HNode.any_string] ∧
    (rule_clone [HNode.any_string] 0 =
        ([HNode.any_string] ++ [HNode.any_string],
          ([HNode.any_string] : Heap).length) ∧
      ([HNode.any_string] ++ [HNode.any_string])[([HNode.any_string] :
          Heap).length]? = some HNode.any_string ∧
      ∀ fuel j,
        hvalidate ([HNode.any_string] ++ [HNode.any_string]) fuel
            ([HNode.any_string] : Heap).length j =
          hvalidate [HNode.any_string] fuel 0 j) :=
  ⟨by decide,
    clone_copies_node_spec [HNode.any_string] 0 HNode.any_string
      (by decide) rfl⟩

/-- C8 (counterexample to the claim as stated): the heap holds a
StringLiteral("x") node at address 0 and an Object node `{"a" → 0}` at
address 1.  Cloning the object allocates exactly one node (the heap grows
from 2 to 3 nodes) whose member list still points at address 0 — the
original's child is shared, not recursively cloned — and mutating that
shared child (to StringLiteral("y")) flips the clone's verdict on the
document `{"a": "y"}` from false to true, so mutating the original's
children does change the clone's validation behavior. -/
theorem clone_shares_children_counterexample :
    rule_clone [HNode.string_rule [120], HNode.object_rule [([97], 0)]] 1 =
      ([HNode.string_rule [120], HNode.object_rule [([97], 0)],
        HNode.object_rule [([97], 0)]], 2) ∧
    hvalidate [HNode.string_rule [120], HNode.object_rule [([97], 0)],
        HNode.object_rule [([97], 0)]] 2 2
        (Json.object [([97], Json.string [121])]) = false ∧
    hvalidate ([HNode.string_rule [120], HNode.object_rule [([97], 0)],
        HNode.object_rule [([97], 0)]].set 0 (HNode.string_rule [121])) 2 2
        (Json.object [([97], Json.string [121])]) = true := by
  refine ⟨rfl, ?_, ?_⟩
  · decide
  · decide

/-- Witness for C2: the operation sequence
`set("a", AnyString); set("b", Null); erase("a")`. -/
theorem set_erase_sorted_invariant_witness :
    sortedKeys (applyOps [ObjOp.set [97] Rule.any_string,
      ObjOp.set [98] Rule.null_rule, ObjOp.erase [97]]) ∧
    ((applyOps [ObjOp.set [97] Rule.any_string,
      ObjOp.set [98] Rule.null_rule, ObjOp.erase [97]]).map Prod.fst).Nodup :=
  set_erase_sorted_invariant
    [ObjOp.set [97] Rule.any_string, ObjOp.set [98] Rule.null_rule,
      ObjOp.erase [97]]

/-- Witness for C3: the sequence `set("b", Null); set("a", AnyString)`
searched for the name `"a"`. -/
theorem find_eq_linear_scan_witness :
    object_rule.find (applyOps [ObjOp.set [98] Rule.null_rule,
        ObjOp.set [97] Rule.any_string]) [97] =
      linearFindIdx (applyOps [ObjOp.set [98] Rule.null_rule,
        ObjOp.set [97] Rule.any_string]) [97] ∧
    (object_rule.find (applyOps [ObjOp.set [98] Rule.null_rule,
        ObjOp.set [97] Rule.any_string]) [97] = none ↔
      ∀ m ∈ applyOps [ObjOp.set [98] Rule.null_rule,
        ObjOp.set [97] Rule.any_string], m.1 ≠ [97]) :=
  find_eq_linear_scan
    [ObjOp.set [98] Rule.null_rule, ObjOp.set [97] Rule.any_string] [97]

/-- Witness for C5: bulk-inserting a pair whose name `"a"` coincides with
the single existing member's name. -/
theorem bulk_insert_spec_witness :
    (object_rule.insert [(([97] : Str), Rule.any_string)]
        [([97], Rule.null_rule)]).length =
      [(([97] : Str), Rule.any_string)].length +
        [(([97] : Str), Rule.null_rule)].length ∧
    sortedKeysLe (object_rule.insert [(([97] : Str), Rule.any_string)]
        [([97], Rule.null_rule)]) ∧
    (object_rule.insert [(([97] : Str), Rule.any_string)]
        [([97], Rule.null_rule)]).Perm
      ([(([97] : Str), Rule.any_string)] ++ [([97], Rule.null_rule)]) :=
  bulk_insert_spec [([97], Rule.any_string)] [([97], Rule.null_rule)]

/-- Witness for C6: the empty array rule container against a null
document. -/
theorem array_rule_validate_false_witness :
    Rule.validate (.array_rule []) Json.null = false :=
  array_rule_validate_false [] Json.null

/-- Witness for C10: inserting one pair after one existing element. -/
theorem array_insert_frame_spec_witness :
    (array_rule.insert [Rule.any_object]
        [([97], Rule.any_string)]).length =
      [Rule.any_object].length + [(([97] : Str), Rule.any_string)].length ∧
    (array_rule.insert [Rule.any_object]
        [([97], Rule.any_string)]).take [Rule.any_object].length =
      [Rule.any_object] ∧
    ∀ i (hi : i < [(([97] : Str), Rule.any_string)].length),
      (array_rule.insert [Rule.any_object]
          [([97], Rule.any_string)])[[Rule.any_object].length + i]? =
        some ([(([97] : Str), Rule.any_string)].get ⟨i, hi⟩).2 :=
  array_insert_frame_spec [Rule.any_object] [([97], Rule.any_string)]
